import Mathlib

/-!
Verification of the DynamicKeyStroke CLI core (src/cli.py).

The development shallowly embeds the event-to-feature extraction engine and
its collaborators:

* `KeyEvent`, `compute_round_features` — the per-round feature extractor
  (`compute_round_features` in cli.py, lines 95-113).  Python dicts
  (`down_map`, the `defaultdict(list)` of hold times) are embedded as
  insertion-ordered association lists, matching CPython dict semantics.
* `summarize_list`, `aggregate` — the statistics summary and session
  aggregation performed by `make_json_report` (lines 116-142).
* `mkRoundResult` — the `RoundResult` construction in `main` (lines 277-285).
* `hash_key` — `KeystrokeCapture._hash_key` (lines 68-73), with SHA-256 and
  UTF-8 encoding embedded concretely over lists of byte values.

Timestamps and durations are modelled as rationals: the Python source uses
floats, but every claim under study concerns ordering, sign, pairing and
concatenation, for which exact arithmetic is the faithful idealisation
(Python's `statistics.mean`/`pstdev` themselves compute via exact fractions
internally).
-/

/-- One recorded keyboard event, as stored by `KeystrokeCapture.on_press` /
`on_release`: the literal strings `"down"` / `"up"`, the (possibly hashed)
key identifier, and the capture timestamp. -/
structure KeyEvent where
  event : String
  key_hash : String
  timestamp : ℚ
deriving DecidableEq, Repr

/-- Lookup in an insertion-ordered association list (Python `d[k]` /
`k in d`). -/
def lookupA {β : Type} (k : String) : List (String × β) → Option β
  | [] => none
  | (k1, v) :: rest => if k1 = k then some v else lookupA k rest

/-- Assignment `d[k] = v` on a Python dict: overwrite in place if the key is
present, otherwise append a new entry at the end (insertion order). -/
def setA {β : Type} (k : String) (v : β) : List (String × β) → List (String × β)
  | [] => [(k, v)]
  | (k1, v1) :: rest => if k1 = k then (k1, v) :: rest else (k1, v1) :: setA k v rest

/-- Deletion `del d[k]` on a Python dict. -/
def delA {β : Type} (k : String) : List (String × β) → List (String × β)
  | [] => []
  | (k1, v1) :: rest => if k1 = k then rest else (k1, v1) :: delA k rest

/-- The `defaultdict(list)` operation `d[k].extend(v)` (and `d[k].append(x)`
when `v = [x]`): extend the existing entry in place, or create a new entry
at the end holding exactly `v`. -/
def appendA (k : String) (v : List ℚ) : List (String × List ℚ) → List (String × List ℚ)
  | [] => [(k, v)]
  | (k1, v1) :: rest => if k1 = k then (k1, v1 ++ v) :: rest else (k1, v1) :: appendA k v rest

/-- The event loop of `compute_round_features` (cli.py lines 101-111), with
the loop state made explicit: `last` is `last_down_ts` (`None` initially),
`dm` is `down_map`, `iacc`/`hacc` accumulate `inter_key_intervals` and
`key_hold_times`.  A `"down"` event appends `t - last_down_ts` to the
intervals (when `last_down_ts` is set) and overwrites `down_map[key]`;
an `"up"` event with an open press appends `t - down_map[key]` to the key's
hold list only when that difference is nonnegative, and removes the entry;
any other event (an `"up"` with no open press included) changes nothing. -/
def featLoop : List KeyEvent → Option ℚ → List (String × ℚ) → List ℚ →
    List (String × List ℚ) → List ℚ × List (String × List ℚ)
  | [], _, _, iacc, hacc => (iacc, hacc)
  | ev :: rest, last, dm, iacc, hacc =>
    if ev.event = "down" then
      featLoop rest (some ev.timestamp) (setA ev.key_hash ev.timestamp dm)
        (match last with
         | none => iacc
         | some t => iacc ++ [ev.timestamp - t]) hacc
    else if ev.event = "up" then
      match lookupA ev.key_hash dm with
      | some t0 =>
        featLoop rest last (delA ev.key_hash dm) iacc
          (if 0 ≤ ev.timestamp - t0 then appendA ev.key_hash [ev.timestamp - t0] hacc else hacc)
      | none => featLoop rest last dm iacc hacc
    else
      featLoop rest last dm iacc hacc

/-- The feature extractor `compute_round_features` (cli.py lines 95-113):
returns `(inter_key_intervals, key_hold_times)`. -/
def compute_round_features (events : List KeyEvent) : List ℚ × List (String × List ℚ) :=
  featLoop events none [] [] []

theorem featLoop_down (ev : KeyEvent) (rest : List KeyEvent) (last : Option ℚ)
    (dm : List (String × ℚ)) (iacc : List ℚ) (hacc : List (String × List ℚ))
    (hd : ev.event = "down") :
    featLoop (ev :: rest) last dm iacc hacc =
      featLoop rest (some ev.timestamp) (setA ev.key_hash ev.timestamp dm)
        (match last with
         | none => iacc
         | some t => iacc ++ [ev.timestamp - t]) hacc := by
  simp [featLoop, hd]

theorem featLoop_up_open (ev : KeyEvent) (rest : List KeyEvent) (last : Option ℚ)
    (dm : List (String × ℚ)) (iacc : List ℚ) (hacc : List (String × List ℚ)) (t0 : ℚ)
    (hu : ev.event = "up") (hlk : lookupA ev.key_hash dm = some t0) :
    featLoop (ev :: rest) last dm iacc hacc =
      featLoop rest last (delA ev.key_hash dm) iacc
        (if 0 ≤ ev.timestamp - t0 then appendA ev.key_hash [ev.timestamp - t0] hacc
         else hacc) := by
  simp [featLoop, hu, hlk]

theorem featLoop_up_closed (ev : KeyEvent) (rest : List KeyEvent) (last : Option ℚ)
    (dm : List (String × ℚ)) (iacc : List ℚ) (hacc : List (String × List ℚ))
    (hu : ev.event = "up") (hlk : lookupA ev.key_hash dm = none) :
    featLoop (ev :: rest) last dm iacc hacc = featLoop rest last dm iacc hacc := by
  simp [featLoop, hu, hlk]

theorem featLoop_other (ev : KeyEvent) (rest : List KeyEvent) (last : Option ℚ)
    (dm : List (String × ℚ)) (iacc : List ℚ) (hacc : List (String × List ℚ))
    (hd : ¬ ev.event = "down") (hu : ¬ ev.event = "up") :
    featLoop (ev :: rest) last dm iacc hacc = featLoop rest last dm iacc hacc := by
  simp [featLoop, hd, hu]

/-- Number of `"down"` events in a buffer. -/
def countDown (events : List KeyEvent) : ℕ :=
  (events.filter (fun e => e.event = "down")).length

theorem countDown_cons (ev : KeyEvent) (rest : List KeyEvent) :
    countDown (ev :: rest) =
      if ev.event = "down" then countDown rest + 1 else countDown rest := by
  by_cases h : ev.event = "down" <;> simp [countDown, List.filter, h]

theorem featLoop_length_intervals (evs : List KeyEvent) :
    ∀ (last : Option ℚ) (dm : List (String × ℚ)) (iacc : List ℚ)
      (hacc : List (String × List ℚ)),
      (featLoop evs last dm iacc hacc).1.length =
        iacc.length + (match last with
          | some _ => countDown evs
          | none => countDown evs - 1) := by
  induction evs with
  | nil =>
    intro last dm iacc hacc
    cases last <;> simp [featLoop, countDown]
  | cons ev rest ih =>
    intro last dm iacc hacc
    by_cases hd : ev.event = "down"
    · rw [featLoop_down ev rest last dm iacc hacc hd, ih, countDown_cons]
      cases last with
      | none => simp [hd]
      | some t =>
        simp [hd]
        omega
    · by_cases hu : ev.event = "up"
      · rcases hlk : lookupA ev.key_hash dm with _ | t0
        · rw [featLoop_up_closed ev rest last dm iacc hacc hu hlk, ih, countDown_cons]
          simp [hd]
        · rw [featLoop_up_open ev rest last dm iacc hacc t0 hu hlk, ih, countDown_cons]
          simp [hd]
      · rw [featLoop_other ev rest last dm iacc hacc hd hu, ih, countDown_cons]
        simp [hd]

theorem appendA_pred (P : List ℚ → Prop) (k : String) (v : List ℚ) :
    ∀ hacc : List (String × List ℚ), (∀ p ∈ hacc, P p.2) →
      (∀ l, P l → P (l ++ v)) → P v →
      ∀ p ∈ appendA k v hacc, P p.2 := by
  intro hacc
  induction hacc with
  | nil =>
    intro _ _ hv p hp
    simp only [appendA, List.mem_singleton] at hp
    subst hp
    exact hv
  | cons q rest ih =>
    intro hall hcl hv p hp
    rcases q with ⟨k1, v1⟩
    by_cases hk : k1 = k
    · simp only [appendA, hk, if_pos] at hp
      rcases List.mem_cons.mp hp with h | h
      · subst h
        exact hcl v1 (hall (k1, v1) (List.mem_cons_self _ _))
      · exact hall p (List.mem_cons_of_mem _ h)
    · simp only [appendA, hk, if_neg, not_false_iff] at hp
      rcases List.mem_cons.mp hp with h | h
      · subst h
        exact hall (k1, v1) (List.mem_cons_self _ _)
      · exact ih (fun q hq => hall q (List.mem_cons_of_mem _ hq)) hcl hv p h

theorem featLoop_holds_pred (P : List ℚ → Prop)
    (hsing : ∀ h : ℚ, 0 ≤ h → P [h])
    (happ : ∀ (l : List ℚ) (h : ℚ), P l → 0 ≤ h → P (l ++ [h])) :
    ∀ (evs : List KeyEvent) (last : Option ℚ) (dm : List (String × ℚ))
      (iacc : List ℚ) (hacc : List (String × List ℚ)),
      (∀ p ∈ hacc, P p.2) → ∀ p ∈ (featLoop evs last dm iacc hacc).2, P p.2 := by
  intro evs
  induction evs with
  | nil =>
    intro last dm iacc hacc hall p hp
    simpa [featLoop] using hall p hp
  | cons ev rest ih =>
    intro last dm iacc hacc hall p hp
    by_cases hd : ev.event = "down"
    · rw [featLoop_down ev rest last dm iacc hacc hd] at hp
      exact ih _ _ _ _ hall p hp
    · by_cases hu : ev.event = "up"
      · rcases hlk : lookupA ev.key_hash dm with _ | t0
        · rw [featLoop_up_closed ev rest last dm iacc hacc hu hlk] at hp
          exact ih _ _ _ _ hall p hp
        · rw [featLoop_up_open ev rest last dm iacc hacc t0 hu hlk] at hp
          by_cases hpos : 0 ≤ ev.timestamp - t0
          · rw [if_pos hpos] at hp
            refine ih _ _ _ _ ?_ p hp
            exact appendA_pred P ev.key_hash [ev.timestamp - t0] hacc hall
              (fun l hl => happ l _ hl hpos) (hsing _ hpos)
          · rw [if_neg hpos] at hp
            exact ih _ _ _ _ hall p hp
      · rw [featLoop_other ev rest last dm iacc hacc hd hu] at hp
        exact ih _ _ _ _ hall p hp

theorem featLoop_intervals_nonneg :
    ∀ (evs : List KeyEvent) (last : Option ℚ) (dm : List (String × ℚ))
      (iacc : List ℚ) (hacc : List (String × List ℚ)),
      List.Pairwise (fun a b : KeyEvent => a.timestamp ≤ b.timestamp) evs →
      (∀ t, last = some t → ∀ e ∈ evs, t ≤ e.timestamp) →
      (∀ x ∈ iacc, 0 ≤ x) →
      ∀ x ∈ (featLoop evs last dm iacc hacc).1, 0 ≤ x := by
  intro evs
  induction evs with
  | nil =>
    intro last dm iacc hacc _ _ hiacc x hx
    simpa [featLoop] using hiacc x hx
  | cons ev rest ih =>
    intro last dm iacc hacc hpw hlast hiacc x hx
    rcases List.pairwise_cons.mp hpw with ⟨hhead, hpw1⟩
    by_cases hd : ev.event = "down"
    · rw [featLoop_down ev rest last dm iacc hacc hd] at hx
      refine ih (some ev.timestamp) _ _ _ hpw1 ?_ ?_ x hx
      · intro t ht e he
        rw [show t = ev.timestamp from by injection ht.symm]
        exact hhead e he
      · cases last with
        | none => exact hiacc
        | some t =>
          intro y hy
          rcases List.mem_append.mp hy with h | h
          · exact hiacc y h
          · rw [List.mem_singleton.mp h]
            have := hlast t rfl ev (List.mem_cons_self _ _)
            linarith
    · by_cases hu : ev.event = "up"
      · rcases hlk : lookupA ev.key_hash dm with _ | t0
        · rw [featLoop_up_closed ev rest last dm iacc hacc hu hlk] at hx
          exact ih last _ _ _ hpw1
            (fun t ht e he => hlast t ht e (List.mem_cons_of_mem _ he)) hiacc x hx
        · rw [featLoop_up_open ev rest last dm iacc hacc t0 hu hlk] at hx
          exact ih last _ _ _ hpw1
            (fun t ht e he => hlast t ht e (List.mem_cons_of_mem _ he)) hiacc x hx
      · rw [featLoop_other ev rest last dm iacc hacc hd hu] at hx
        exact ih last _ _ _ hpw1
          (fun t ht e he => hlast t ht e (List.mem_cons_of_mem _ he)) hiacc x hx

/-- Arithmetic mean, as computed exactly by Python's `statistics.mean`. -/
def mean (l : List ℚ) : ℚ := l.sum / l.length

/-- Population variance (divisor `len(l)`, not `len(l) - 1`), as computed
exactly by Python's `statistics.pvariance`. -/
def pvariance (l : List ℚ) : ℚ :=
  (l.map (fun x => (x - mean l) ^ 2)).sum / l.length

/-- Population standard deviation, `statistics.pstdev`: the square root of
the population variance. -/
noncomputable def pstdev (l : List ℚ) : ℝ := Real.sqrt (pvariance l)

/-- Result of `summarize_list` (cli.py lines 127-136): either the bare
`{"count": 0}` record returned for an empty input, or the full record
`{"count", "mean", "stdev", "min", "max"}`. -/
inductive Summary where
  | empty : Summary
  | stats (count : ℕ) (mean : ℚ) (stdev : ℝ) (min : ℚ) (max : ℚ) : Summary

/-- The statistic summary `summarize_list` (cli.py lines 127-136):
`{"count": 0}` on an empty list, otherwise count, exact mean, population
standard deviation (`0.0` when the list has a single element, matching
`pstdev(lst) if len(lst) > 1 else 0.0`), minimum and maximum. -/
noncomputable def summarize_list (lst : List ℚ) : Summary :=
  match lst with
  | [] => .empty
  | x :: xs =>
    .stats (x :: xs).length (mean (x :: xs))
      (if 1 < (x :: xs).length then pstdev (x :: xs) else 0)
      (xs.foldl min x) (xs.foldl max x)

/-- The `stdev` component of a summary; the `{"count": 0}` record carries no
`stdev` entry, which we read as the defined-to-be-zero value. -/
noncomputable def stdevOf : Summary → ℝ
  | .empty => 0
  | .stats _ _ s _ _ => s

/-- A per-round result as constructed in `main` (cli.py lines 277-285). -/
structure RoundResult where
  round_index : ℕ
  phrase : String
  start_time : ℚ
  end_time : ℚ
  duration : ℚ
  inter_key_intervals : List ℚ
  key_hold_times : List (String × List ℚ)

/-- Construction of a `RoundResult` at round end (cli.py lines 273-285):
`duration = end_time - start_time` and the features come from
`compute_round_features` on the round's event buffer. -/
def mkRoundResult (round_index : ℕ) (phrase : String) (start_time end_time : ℚ)
    (round_events : List KeyEvent) : RoundResult :=
  ⟨round_index, phrase, start_time, end_time, end_time - start_time,
   (compute_round_features round_events).1, (compute_round_features round_events).2⟩

/-- The `all_intervals` accumulator of `make_json_report` (cli.py lines
118-123): every round's `inter_key_intervals`, concatenated in order. -/
def allIntervals (all_rounds : List RoundResult) : List ℚ :=
  all_rounds.foldl (fun acc r => acc ++ r.inter_key_intervals) []

/-- The `aggregate_key_holds` accumulator of `make_json_report` (cli.py
lines 119-125): a `defaultdict(list)` extended, round by round, with each
key's hold-time list. -/
def aggKeyHolds (all_rounds : List RoundResult) : List (String × List ℚ) :=
  all_rounds.foldl
    (fun m r => r.key_hold_times.foldl (fun m2 kv => appendA kv.1 kv.2 m2) m) []

/-- The `"aggregate"` entry of the report (cli.py lines 138-141): the
summary of all intervals, and per-key summaries of the aggregated holds. -/
noncomputable def aggregate (all_rounds : List RoundResult) :
    Summary × List (String × Summary) :=
  (summarize_list (allIntervals all_rounds),
   (aggKeyHolds all_rounds).map (fun kv => (kv.1, summarize_list kv.2)))

/-- Concatenation, across rounds in order, of one key's hold-time lists
(absent keys contribute nothing). -/
def holdsConcat (k : String) (all_rounds : List RoundResult) : List ℚ :=
  (all_rounds.map (fun r => (lookupA k r.key_hold_times).getD [])).flatten

theorem lookupA_appendA_self (k : String) (v : List ℚ) :
    ∀ m : List (String × List ℚ),
      lookupA k (appendA k v m) = some ((lookupA k m).getD [] ++ v) := by
  intro m
  induction m with
  | nil => simp [appendA, lookupA]
  | cons q rest ih =>
    rcases q with ⟨k1, v1⟩
    by_cases hk : k1 = k
    · simp [appendA, lookupA, hk]
    · simp [appendA, lookupA, hk, ih]

theorem lookupA_appendA_other (k q : String) (v : List ℚ) (hne : q ≠ k) :
    ∀ m : List (String × List ℚ), lookupA q (appendA k v m) = lookupA q m := by
  intro m
  induction m with
  | nil => simp [appendA, lookupA, Ne.symm hne]
  | cons p rest ih =>
    rcases p with ⟨k1, v1⟩
    by_cases hk : k1 = k
    · subst hk
      simp [appendA, lookupA, hne, Ne.symm hne]
    · by_cases hq : k1 = q
      · simp [appendA, lookupA, hk, hq, hne, ih]
      · simp [appendA, lookupA, hk, hq, ih]

theorem lookupA_eq_none_of_not_mem {β : Type} (k : String) :
    ∀ m : List (String × β), k ∉ m.map Prod.fst → lookupA k m = none := by
  intro m
  induction m with
  | nil => simp [lookupA]
  | cons q rest ih =>
    rcases q with ⟨k1, v1⟩
    intro hk
    simp only [List.map_cons, List.mem_cons] at hk
    push_neg at hk
    simp [lookupA, Ne.symm hk.1, ih hk.2]

/-- Combination of an accumulated optional entry with a newly looked-up one:
`none` means the key is absent so far. -/
def extOpt (o o2 : Option (List ℚ)) : Option (List ℚ) :=
  match o, o2 with
  | none, o2 => o2
  | some l, none => some l
  | some l, some v => some (l ++ v)

theorem lookupA_foldl_appendA (k : String) :
    ∀ (kvs m : List (String × List ℚ)), (kvs.map Prod.fst).Nodup →
      lookupA k (kvs.foldl (fun m2 kv => appendA kv.1 kv.2 m2) m)
        = extOpt (lookupA k m) (lookupA k kvs) := by
  intro kvs
  induction kvs with
  | nil =>
    intro m _
    cases h : lookupA k m <;> simp [extOpt, lookupA, h]
  | cons kv rest ih =>
    intro m hnd
    rcases kv with ⟨k1, v1⟩
    simp only [List.map_cons, List.nodup_cons] at hnd
    by_cases hk : k1 = k
    · subst hk
      rw [List.foldl_cons, ih (appendA k1 v1 m) hnd.2,
        lookupA_eq_none_of_not_mem k1 rest hnd.1, lookupA_appendA_self]
      cases h : lookupA k1 m <;> simp [extOpt, lookupA, h]
    · rw [List.foldl_cons, ih (appendA k1 v1 m) hnd.2, lookupA_appendA_other k1 k v1 ?_ m]
      · simp [lookupA, hk]
      · intro h
        exact hk h.symm

theorem lookupA_roundsFold (k : String) :
    ∀ (rounds : List RoundResult) (m : List (String × List ℚ)),
      (∀ r ∈ rounds, (r.key_hold_times.map Prod.fst).Nodup) →
      lookupA k (rounds.foldl
          (fun m2 r => r.key_hold_times.foldl (fun m3 kv => appendA kv.1 kv.2 m3) m2) m)
        = rounds.foldl (fun o r => extOpt o (lookupA k r.key_hold_times)) (lookupA k m) := by
  intro rounds
  induction rounds with
  | nil => intro m _; rfl
  | cons r rest ih =>
    intro m hnd
    rw [List.foldl_cons, List.foldl_cons,
      ih _ (fun q hq => hnd q (List.mem_cons_of_mem _ hq)),
      lookupA_foldl_appendA k r.key_hold_times m (hnd r (List.mem_cons_self _ _))]

theorem foldl_extOpt_some :
    ∀ (opts : List (Option (List ℚ))) (l0 : List ℚ),
      opts.foldl extOpt (some l0)
        = some (l0 ++ (opts.map (fun o => o.getD [])).flatten) := by
  intro opts
  induction opts with
  | nil => simp
  | cons o rest ih =>
    intro l0
    cases o with
    | none => simp [extOpt, ih]
    | some v => simp [extOpt, ih]

theorem foldl_extOpt_none :
    ∀ (opts : List (Option (List ℚ))) (l : List ℚ),
      opts.foldl extOpt none = some l → l = (opts.map (fun o => o.getD [])).flatten := by
  intro opts
  induction opts with
  | nil => intro l h; cases h
  | cons o rest ih =>
    intro l h
    cases o with
    | none =>
      rw [List.foldl_cons] at h
      simpa using ih l h
    | some v =>
      rw [List.foldl_cons] at h
      rw [show extOpt none (some v) = some v from rfl, foldl_extOpt_some] at h
      simpa using (Option.some_injective _ h).symm

theorem mem_keys_appendA (k q : String) (v : List ℚ) :
    ∀ m : List (String × List ℚ),
      (q ∈ (appendA k v m).map Prod.fst ↔ q ∈ m.map Prod.fst ∨ q = k) := by
  intro m
  induction m with
  | nil => simp [appendA]
  | cons p rest ih =>
    rcases p with ⟨k1, v1⟩
    by_cases hk : k1 = k
    · subst hk
      simp [appendA]
      tauto
    · simp [appendA, hk, ih]
      tauto

theorem nodup_keys_appendA (k : String) (v : List ℚ) :
    ∀ m : List (String × List ℚ),
      (m.map Prod.fst).Nodup → ((appendA k v m).map Prod.fst).Nodup := by
  intro m
  induction m with
  | nil =>
    intro _
    simp [appendA]
  | cons p rest ih =>
    rcases p with ⟨k1, v1⟩
    intro hnd
    simp only [List.map_cons, List.nodup_cons] at hnd
    by_cases hk : k1 = k
    · subst hk
      simpa [appendA] using hnd
    · simp only [appendA, if_neg hk, List.map_cons, List.nodup_cons]
      refine ⟨?_, ih hnd.2⟩
      intro hmem
      rcases (mem_keys_appendA k k1 v rest).mp hmem with h | h
      · exact hnd.1 h
      · exact hk h

theorem nodup_keys_foldl_appendA :
    ∀ (kvs m : List (String × List ℚ)),
      (m.map Prod.fst).Nodup →
      ((kvs.foldl (fun m2 kv => appendA kv.1 kv.2 m2) m).map Prod.fst).Nodup := by
  intro kvs
  induction kvs with
  | nil => intro m h; exact h
  | cons kv rest ih =>
    intro m h
    rw [List.foldl_cons]
    exact ih _ (nodup_keys_appendA kv.1 kv.2 m h)

theorem nodup_keys_aggKeyHolds (rounds : List RoundResult) :
    ((aggKeyHolds rounds).map Prod.fst).Nodup := by
  have general :
      ∀ (rs : List RoundResult) (m : List (String × List ℚ)),
        (m.map Prod.fst).Nodup →
        ((rs.foldl (fun m2 r =>
            r.key_hold_times.foldl (fun m3 kv => appendA kv.1 kv.2 m3) m2) m).map
          Prod.fst).Nodup := by
    intro rs
    induction rs with
    | nil => intro m h; exact h
    | cons r rest ih =>
      intro m h
      rw [List.foldl_cons]
      exact ih _ (nodup_keys_foldl_appendA r.key_hold_times m h)
  exact general rounds [] (by simp)

theorem lookupA_eq_some_of_mem {β : Type} (k : String) (l : β) :
    ∀ m : List (String × β),
      (m.map Prod.fst).Nodup → (k, l) ∈ m → lookupA k m = some l := by
  intro m
  induction m with
  | nil => intro _ h; cases h
  | cons p rest ih =>
    rcases p with ⟨k1, v1⟩
    intro hnd hmem
    simp only [List.map_cons, List.nodup_cons] at hnd
    rcases List.mem_cons.mp hmem with h | h
    · rw [show k1 = k from (congrArg Prod.fst h).symm]
      simp only [lookupA, if_pos rfl]
      exact congrArg (fun p : String × β => some p.2) h.symm
    · have hk : ¬ k1 = k := by
        intro he
        exact hnd.1 (he ▸ List.mem_map_of_mem Prod.fst h)
      simp only [lookupA, if_neg hk]
      exact ih hnd.2 h

theorem aggKeyHolds_eq_holdsConcat (k : String) (rounds : List RoundResult)
    (hnd : ∀ r ∈ rounds, (r.key_hold_times.map Prod.fst).Nodup)
    (l : List ℚ) (hl : lookupA k (aggKeyHolds rounds) = some l) :
    l = holdsConcat k rounds := by
  have h1 := lookupA_roundsFold k rounds [] hnd
  rw [show lookupA k ([] : List (String × List ℚ)) = none from rfl] at h1
  rw [aggKeyHolds] at hl
  rw [h1, ← List.foldl_map] at hl
  have h2 := foldl_extOpt_none _ l hl
  rw [h2, holdsConcat, List.map_map]
  rfl

theorem foldl_append_intervals (rounds : List RoundResult) :
    ∀ acc : List ℚ,
      rounds.foldl (fun a r => a ++ r.inter_key_intervals) acc
        = acc ++ (rounds.map (fun r => r.inter_key_intervals)).flatten := by
  induction rounds with
  | nil => intro acc; simp
  | cons r rest ih =>
    intro acc
    rw [List.foldl_cons, ih]
    simp

theorem allIntervals_eq_flatten (rounds : List RoundResult) :
    allIntervals rounds = (rounds.map (fun r => r.inter_key_intervals)).flatten := by
  rw [allIntervals, foldl_append_intervals]
  simp

theorem pvariance_nonneg (l : List ℚ) : 0 ≤ pvariance l := by
  rw [pvariance]
  apply div_nonneg
  · apply List.sum_nonneg
    intro x hx
    rcases List.mem_map.mp hx with ⟨y, _, rfl⟩
    positivity
  · exact Nat.cast_nonneg _

theorem summarize_singleton (x : ℚ) : summarize_list [x] = .stats 1 x 0 x x := by
  simp [summarize_list, mean]

theorem stdevOf_count_le_one (l : List ℚ) (h : l.length ≤ 1) :
    stdevOf (summarize_list l) = 0 := by
  rcases l with _ | ⟨x, _ | ⟨y, xs⟩⟩
  · rfl
  · simp [summarize_list, stdevOf]
  · simp at h

theorem stdev_sq_mul_count (l : List ℚ) (h : 1 < l.length) :
    stdevOf (summarize_list l) ^ 2 * (l.length : ℝ)
      = (((l.map (fun x => (x - mean l) ^ 2)).sum : ℚ) : ℝ) := by
  rcases l with _ | ⟨x, xs⟩
  · simp at h
  · have hxs : xs ≠ [] := by
      intro he
      subst he
      simp at h
    have hst : stdevOf (summarize_list (x :: xs)) = pstdev (x :: xs) := by
      simp [summarize_list, stdevOf, hxs]
    rw [hst, pstdev, Real.sq_sqrt (by exact_mod_cast pvariance_nonneg (x :: xs))]
    have hq : pvariance (x :: xs) * ((x :: xs).length : ℚ)
        = ((x :: xs).map (fun y => (y - mean (x :: xs)) ^ 2)).sum := by
      rw [pvariance]
      have hpos : 0 < (x :: xs).length := by
        simp
      have hne : (((x :: xs).length : ℕ) : ℚ) ≠ 0 := by
        exact_mod_cast Nat.pos_iff_ne_zero.mp hpos
      field_simp
    rw [show (((x :: xs).length : ℕ) : ℝ) = ((((x :: xs).length : ℕ) : ℚ) : ℝ) from by
      norm_cast]
    rw [← Rat.cast_mul, hq]

/-- Hexadecimal digit character for a value in 0..15 (lowercase, as in
`hexdigest`). -/
def hexDigit (n : ℕ) : Char :=
  if n < 10 then Char.ofNat (48 + n) else Char.ofNat (87 + n)

/-- Exactly `n` hexadecimal digits of `v`, most significant first, leading
zeros kept. -/
def hexChars : ℕ → ℕ → List Char
  | 0, _ => []
  | n + 1, v => hexChars n (v / 16) ++ [hexDigit (v % 16)]

theorem hexChars_length (n : ℕ) : ∀ v : ℕ, (hexChars n v).length = n := by
  induction n with
  | zero => intro v; rfl
  | succ n ih => intro v; simp [hexChars, ih]

/-- Addition of 32-bit words, modulo 2^32. -/
def add32 (a b : ℕ) : ℕ := (a + b) % 4294967296

/-- Right rotation of a 32-bit word by `n` bits. -/
def rotr (n x : ℕ) : ℕ := (x >>> n + x % 2 ^ n * 2 ^ (32 - n)) % 4294967296

/-- Bitwise complement of a 32-bit word. -/
def not32 (x : ℕ) : ℕ := x ^^^ 4294967295

/-- SHA-256 sigma functions. -/
def smallSigma0 (x : ℕ) : ℕ := rotr 7 x ^^^ rotr 18 x ^^^ x >>> 3

/-- Schedule sigma-1. -/
def smallSigma1 (x : ℕ) : ℕ := rotr 17 x ^^^ rotr 19 x ^^^ x >>> 10

/-- Compression Sigma-0. -/
def bigSigma0 (x : ℕ) : ℕ := rotr 2 x ^^^ rotr 13 x ^^^ rotr 22 x

/-- Compression Sigma-1. -/
def bigSigma1 (x : ℕ) : ℕ := rotr 6 x ^^^ rotr 11 x ^^^ rotr 25 x

/-- The 64 SHA-256 round constants. -/
def K256 : List ℕ :=
  [1116352408, 1899447441, 3049323471, 3921009573, 961987163, 1508970993,
   2453635748, 2870763221, 3624381080, 310598401, 607225278, 1426881987,
   1925078388, 2162078206, 2614888103, 3248222580, 3835390401, 4022224774,
   264347078, 604807628, 770255983, 1249150122, 1555081692, 1996064986,
   2554220882, 2821834349, 2952996808, 3210313671, 3336571891, 3584528711,
   113926993, 338241895, 666307205, 773529912, 1294757372, 1396182291,
   1695183700, 1986661051, 2177026350, 2456956037, 2730485921, 2820302411,
   3259730800, 3345764771, 3516065817, 3600352804, 4094571909, 275423344,
   430227734, 506948616, 659060556, 883997877, 958139571, 1322822218,
   1537002063, 1747873779, 1955562222, 2024104815, 2227730452, 2361852424,
   2428436474, 2756734187, 3204031479, 3329325298]

/-- Big-endian byte expansion of `v`, exactly `n` bytes. -/
def beBytes : ℕ → ℕ → List ℕ
  | 0, _ => []
  | n + 1, v => beBytes n (v / 256) ++ [v % 256]

/-- SHA-256 padding: append `0x80`, zero bytes, and the 8-byte big-endian
bit length, reaching a multiple of 64 bytes. -/
def padMessage (msg : List ℕ) : List ℕ :=
  msg ++ [128] ++ List.replicate ((64 + 56 - (msg.length + 1) % 64) % 64) 0
      ++ beBytes 8 (8 * msg.length)

set_option linter.unusedVariables false in
/-- Split a padded message into 64-byte blocks. -/
def toBlocks (l : List ℕ) : List (List ℕ) :=
  if h : l = [] then []
  else l.take 64 :: toBlocks (l.drop 64)
termination_by l.length
decreasing_by
  have hp := List.length_pos.mpr h
  simp only [List.length_drop]
  omega

/-- Big-endian 32-bit word from a list of bytes. -/
def beWord (bytes : List ℕ) : ℕ := bytes.foldl (fun a b => a * 256 + b) 0

/-- The 16 initial message-schedule words of one block. -/
def blockWords (b : List ℕ) : List ℕ :=
  (List.range 16).map (fun i => beWord ((b.drop (4 * i)).take 4))

/-- One schedule-extension step: append `W[n]` computed from `W[n-2]`,
`W[n-7]`, `W[n-15]` and `W[n-16]`. -/
def scheduleStep (w : List ℕ) : List ℕ :=
  w ++ [add32 (add32 (smallSigma1 (w.getD (w.length - 2) 0)) (w.getD (w.length - 7) 0))
        (add32 (smallSigma0 (w.getD (w.length - 15) 0)) (w.getD (w.length - 16) 0))]

/-- The full 64-word message schedule of one block. -/
def fullSchedule (b : List ℕ) : List ℕ :=
  (List.range 48).foldl (fun w _ => scheduleStep w) (blockWords b)

/-- The eight 32-bit working variables of the compression function. -/
structure Hash8 where
  a : ℕ
  b : ℕ
  c : ℕ
  d : ℕ
  e : ℕ
  f : ℕ
  g : ℕ
  h : ℕ

/-- One of the 64 compression rounds, consuming a pair of round constant and
schedule word. -/
def compressStep (st : Hash8) (kw : ℕ × ℕ) : Hash8 :=
  let t1 := add32 st.h (add32 (bigSigma1 st.e)
    (add32 ((st.e &&& st.f) ^^^ (not32 st.e &&& st.g)) (add32 kw.1 kw.2)))
  let t2 := add32 (bigSigma0 st.a)
    ((st.a &&& st.b) ^^^ (st.a &&& st.c) ^^^ (st.b &&& st.c))
  ⟨add32 t1 t2, st.a, st.b, st.c, add32 st.d t1, st.e, st.f, st.g⟩

/-- Compression of one 64-byte block into the running hash value. -/
def compressBlock (h0 : Hash8) (b : List ℕ) : Hash8 :=
  let r := (K256.zip (fullSchedule b)).foldl compressStep h0
  ⟨add32 h0.a r.a, add32 h0.b r.b, add32 h0.c r.c, add32 h0.d r.d,
   add32 h0.e r.e, add32 h0.f r.f, add32 h0.g r.g, add32 h0.h r.h⟩

/-- The SHA-256 initial hash value. -/
def initH : Hash8 :=
  ⟨1779033703, 3144134277, 1013904242, 2773480762,
   1359893119, 2600822924, 528734635, 1541459225⟩

/-- Lowercase hexadecimal digest of a byte string:
`hashlib.sha256(data).hexdigest()`. -/
def sha256hex (msg : List ℕ) : String :=
  let r := (toBlocks (padMessage msg)).foldl compressBlock initH
  String.mk (hexChars 8 r.a ++ hexChars 8 r.b ++ hexChars 8 r.c ++ hexChars 8 r.d ++
    hexChars 8 r.e ++ hexChars 8 r.f ++ hexChars 8 r.g ++ hexChars 8 r.h)

/-- UTF-8 encoding of a single code point. -/
def utf8Char (c : Char) : List ℕ :=
  let n := c.toNat
  if n < 128 then [n]
  else if n < 2048 then [192 + n / 64, 128 + n % 64]
  else if n < 65536 then [224 + n / 4096, 128 + n / 64 % 64, 128 + n % 64]
  else [240 + n / 262144, 128 + n / 4096 % 64, 128 + n / 64 % 64, 128 + n % 64]

/-- UTF-8 encoding of a string, `str.encode("utf-8")`. -/
def utf8Bytes (s : String) : List ℕ :=
  (s.data.map utf8Char).flatten

/-- `KeystrokeCapture._hash_key` (cli.py lines 68-73): the raw key name when
anonymization is off, otherwise the SHA-256 hex digest of
`salt + "::" + key_name` encoded as UTF-8. -/
def hash_key (anonymize : Bool) (salt key_name : String) : String :=
  if !anonymize then key_name
  else sha256hex (utf8Bytes (salt ++ "::" ++ key_name))

theorem sha256hex_length (msg : List ℕ) : (sha256hex msg).length = 64 := by
  simp [sha256hex, String.length, hexChars_length]

/-- Claim C1 counterexample: the claim quantifies over every input event
sequence, but `compute_round_features` appends `t - last_down_ts` to
`inter_key_intervals` without any sign check, so the out-of-order buffer
`[Down(A,10), Down(B,5)]` produces the negative interval `-5`. -/
theorem C1_counterexample :
    compute_round_features [⟨"down", "A", 10⟩, ⟨"down", "B", 5⟩] = ([-5], [])
    ∧ ¬ (∀ x ∈ (compute_round_features [⟨"down", "A", 10⟩, ⟨"down", "B", 5⟩]).1,
          (0:ℚ) ≤ x) := by
  have h1 : compute_round_features [⟨"down", "A", 10⟩, ⟨"down", "B", 5⟩]
      = ([-5], []) := by
    norm_num [compute_round_features, featLoop, setA]
  refine ⟨h1, fun hall => ?_⟩
  have h2 := hall (-5) (by rw [h1]; simp)
  norm_num at h2

/-- Claim C1 (amended): every hold time in the `key_hold_times` output of
`compute_round_features` is nonnegative, for every input event sequence
(negative holds are dropped, not clamped); and every inter-key interval is
nonnegative whenever the input events have non-decreasing timestamps. -/
theorem C1_nonneg_outputs :
    (∀ (events : List KeyEvent) (p : String × List ℚ),
        p ∈ (compute_round_features events).2 → ∀ h ∈ p.2, 0 ≤ h)
    ∧ (∀ events : List KeyEvent,
        List.Pairwise (fun a b : KeyEvent => a.timestamp ≤ b.timestamp) events →
        ∀ x ∈ (compute_round_features events).1, 0 ≤ x) := by
  constructor
  · intro events p hp
    refine featLoop_holds_pred (fun l => ∀ y ∈ l, 0 ≤ y) ?_ ?_
      events none [] [] [] (by simp) p hp
    · intro h h0 y hy
      rw [List.mem_singleton.mp hy]
      exact h0
    · intro l h hl h0 y hy
      rcases List.mem_append.mp hy with hm | hm
      · exact hl y hm
      · rw [List.mem_singleton.mp hm]
        exact h0
  · intro events hpw
    refine featLoop_intervals_nonneg events none [] [] [] hpw ?_ ?_
    · intro t ht
      cases ht
    · intro x hx
      cases hx

/-- Witness for C1 (amended): concrete instantiations of both conjuncts. -/
theorem C1_nonneg_outputs_witness : (0:ℚ) ≤ 3 ∧ (0:ℚ) ≤ 2 := by
  constructor
  · exact C1_nonneg_outputs.1 [⟨"down", "D", 1⟩, ⟨"up", "D", 4⟩] ("D", [3])
      (by simp [compute_round_features, featLoop, setA, lookupA, delA, appendA]
          norm_num)
      3 (by simp)
  · exact C1_nonneg_outputs.2 [⟨"down", "E", 1⟩, ⟨"down", "E", 3⟩]
      (by norm_num [List.pairwise_cons]) 2
      (by norm_num [compute_round_features, featLoop, setA])

/-- Claim C2: on `[Down(A,0), Down(A,5), Up(A,8)]` the second press of `A`
overwrites the first in `down_map`, so the recorded hold for `A` is
`8 - 5 = 3` (and the earlier press contributes no hold). -/
theorem C2_repress_overwrites :
    compute_round_features [⟨"down", "A", 0⟩, ⟨"down", "A", 5⟩, ⟨"up", "A", 8⟩]
      = ([5], [("A", [3])]) := by
  simp [compute_round_features, featLoop, setA, lookupA, delA, appendA]
  norm_num

/-- Claim C3: on `[Down(A,0), Down(B,10), Up(A,15), Up(B,25)]` the intervals
are the gaps between consecutive presses of any key, `[10]`, and each `Up`
pairs with its key's open press: holds `A -> [15]`, `B -> [15]`. -/
theorem C3_two_key_scenario :
    compute_round_features
        [⟨"down", "A", 0⟩, ⟨"down", "B", 10⟩, ⟨"up", "A", 15⟩, ⟨"up", "B", 25⟩]
      = ([10], [("A", [15]), ("B", [15])]) := by
  simp [compute_round_features, featLoop, setA, lookupA, delA, appendA]
  norm_num

/-- Claim C4: an `"up"` event whose key has no open press in `down_map`
leaves the whole loop state unchanged (it is silently ignored), and the
single-event buffer `[Up(C,5)]` yields empty intervals and an empty hold
map. -/
theorem C4_orphan_up_ignored :
    (∀ (ev : KeyEvent) (rest : List KeyEvent) (last : Option ℚ)
        (dm : List (String × ℚ)) (iacc : List ℚ) (hacc : List (String × List ℚ)),
        ev.event = "up" → lookupA ev.key_hash dm = none →
        featLoop (ev :: rest) last dm iacc hacc = featLoop rest last dm iacc hacc)
    ∧ compute_round_features [⟨"up", "C", 5⟩] = ([], []) := by
  constructor
  · exact fun ev rest last dm iacc hacc hu hlk =>
      featLoop_up_closed ev rest last dm iacc hacc hu hlk
  · simp [compute_round_features, featLoop, lookupA]

/-- Witness for C4: the orphan `Up(Z,7)` is skipped on concrete state. -/
theorem C4_orphan_up_ignored_witness :
    featLoop [⟨"up", "Z", 7⟩] none [] [] [] = featLoop [] none [] [] [] :=
  C4_orphan_up_ignored.1 ⟨"up", "Z", 7⟩ [] none [] [] [] rfl rfl

theorem countDown_filter (p : KeyEvent → Bool)
    (hp : ∀ e : KeyEvent, e.event = "down" → p e = true) :
    ∀ events : List KeyEvent, countDown (events.filter p) = countDown events := by
  intro events
  induction events with
  | nil => rfl
  | cons ev rest ih =>
    cases hpe : p ev with
    | true =>
      rw [List.filter_cons_of_pos hpe, countDown_cons, countDown_cons, ih]
    | false =>
      have hnd : ¬ ev.event = "down" := by
        intro h
        rw [hp ev h] at hpe
        cases hpe
      rw [List.filter_cons_of_neg (by simp [hpe]), countDown_cons, if_neg hnd, ih]

theorem countDown_filter_up :
    ∀ events : List KeyEvent,
      countDown (events.filter (fun e => ¬ e.event = "up")) = countDown events := by
  intro events
  refine countDown_filter _ ?_ events
  intro e he
  simp [he]

/-- Claim C9: the number of inter-key intervals is the number of `"down"`
events minus one (zero when there are no `"down"` events), and removing the
`"up"` events does not change it. -/
theorem C9_interval_count :
    ∀ events : List KeyEvent,
      (compute_round_features events).1.length
          = (if countDown events = 0 then 0 else countDown events - 1)
      ∧ (compute_round_features (events.filter (fun e => ¬ e.event = "up"))).1.length
          = (compute_round_features events).1.length := by
  intro events
  constructor
  · rw [compute_round_features, featLoop_length_intervals events none [] [] []]
    simp only [List.length_nil, Nat.zero_add]
    rcases Nat.eq_zero_or_pos (countDown events) with h | h
    · simp [h]
    · rw [if_neg (Nat.pos_iff_ne_zero.mp h)]
  · rw [compute_round_features, compute_round_features,
      featLoop_length_intervals _ none [] [] [],
      featLoop_length_intervals events none [] [] [], countDown_filter_up]

/-- Claim C10: every key present in the `key_hold_times` output maps to a
non-empty list of holds; keys with no recorded hold are simply absent. -/
theorem C10_holds_nonempty :
    ∀ (events : List KeyEvent) (p : String × List ℚ),
      p ∈ (compute_round_features events).2 → p.2 ≠ [] := by
  intro events p hp
  exact featLoop_holds_pred (fun l => l ≠ [])
    (fun h _ => by simp) (fun l h _ _ => by simp)
    events none [] [] [] (by simp) p hp

/-- Witness for C10: key `X` maps to the non-empty hold list `[2]`. -/
theorem C10_holds_nonempty_witness : (("X", [(2:ℚ)]) : String × List ℚ).2 ≠ [] :=
  C10_holds_nonempty [⟨"down", "X", 0⟩, ⟨"up", "X", 2⟩] ("X", [2])
    (by simp [compute_round_features, featLoop, setA, lookupA, delA, appendA])

/-- Claim C5: `summarize_list` returns the bare count-0 record on `[]`, the
full record `{count 1, mean x, stdev 0, min x, max x}` on `[x]`, reports a
zero standard deviation whenever the count is at most one, and for larger
counts its standard deviation squared times the count equals the sum of
squared deviations from the mean — i.e. the population form with divisor
`count`, not `count - 1`. -/
theorem C5_summarize_list_spec :
    summarize_list ([] : List ℚ) = Summary.empty
    ∧ (∀ x : ℚ, summarize_list [x] = Summary.stats 1 x 0 x x)
    ∧ (∀ l : List ℚ, l.length ≤ 1 → stdevOf (summarize_list l) = 0)
    ∧ (∀ l : List ℚ, 1 < l.length →
        stdevOf (summarize_list l) ^ 2 * (l.length : ℝ)
          = (((l.map (fun x => (x - mean l) ^ 2)).sum : ℚ) : ℝ)) :=
  ⟨rfl, summarize_singleton, stdevOf_count_le_one, stdev_sq_mul_count⟩

/-- Witness for C5: the two hypothesis-bearing conjuncts at concrete
lists. -/
theorem C5_summarize_list_spec_witness :
    stdevOf (summarize_list [(5:ℚ)]) = 0
    ∧ stdevOf (summarize_list [(1:ℚ), 3]) ^ 2 * ((([(1:ℚ), 3] : List ℚ).length : ℕ) : ℝ)
        = (((([(1:ℚ), 3] : List ℚ).map (fun x => (x - mean [(1:ℚ), 3]) ^ 2)).sum : ℚ) : ℝ) :=
  ⟨C5_summarize_list_spec.2.2.1 [5] (by simp),
   C5_summarize_list_spec.2.2.2 [1, 3] (by simp)⟩

/-- Claim C6: the session aggregate equals the summary of the plain
concatenations — the interval summary is `summarize_list` of all rounds'
intervals concatenated in order, and every per-key entry is `summarize_list`
of that key's hold lists concatenated across rounds (assuming each round's
mapping has distinct keys, as Python dicts do). -/
theorem C6_aggregate_is_concat :
    (∀ all_rounds : List RoundResult,
        (aggregate all_rounds).1
          = summarize_list ((all_rounds.map (fun r => r.inter_key_intervals)).flatten))
    ∧ (∀ (all_rounds : List RoundResult) (k : String) (l : List ℚ),
        (∀ r ∈ all_rounds, (r.key_hold_times.map Prod.fst).Nodup) →
        (k, l) ∈ aggKeyHolds all_rounds →
        (k, summarize_list l) ∈ (aggregate all_rounds).2
          ∧ summarize_list l = summarize_list (holdsConcat k all_rounds)) := by
  constructor
  · intro all_rounds
    show summarize_list (allIntervals all_rounds) = _
    rw [allIntervals_eq_flatten]
  · intro all_rounds k l hnd hmem
    constructor
    · exact List.mem_map_of_mem (fun kv => (kv.1, summarize_list kv.2)) hmem
    · rw [aggKeyHolds_eq_holdsConcat k all_rounds hnd l
        (lookupA_eq_some_of_mem k l (aggKeyHolds all_rounds)
          (nodup_keys_aggKeyHolds all_rounds) hmem)]

/-- Witness for C6: a concrete two-round session in which key `A` occurs in
both rounds and key `B` in the first only. -/
theorem C6_aggregate_is_concat_witness :
    (aggregate [(⟨1, "p", 0, 1, 1, [1, 2], [("A", [1]), ("B", [2])]⟩ : RoundResult),
        (⟨2, "p", 1, 2, 1, [3], [("A", [4])]⟩ : RoundResult)]).1
      = summarize_list
          ((([(⟨1, "p", 0, 1, 1, [1, 2], [("A", [1]), ("B", [2])]⟩ : RoundResult),
              (⟨2, "p", 1, 2, 1, [3], [("A", [4])]⟩ : RoundResult)]).map
            (fun r => r.inter_key_intervals)).flatten)
    ∧ (("A", summarize_list [(1:ℚ), 4])
          ∈ (aggregate [(⟨1, "p", 0, 1, 1, [1, 2], [("A", [1]), ("B", [2])]⟩ : RoundResult),
              (⟨2, "p", 1, 2, 1, [3], [("A", [4])]⟩ : RoundResult)]).2
        ∧ summarize_list [(1:ℚ), 4]
            = summarize_list (holdsConcat "A"
                [(⟨1, "p", 0, 1, 1, [1, 2], [("A", [1]), ("B", [2])]⟩ : RoundResult),
                 (⟨2, "p", 1, 2, 1, [3], [("A", [4])]⟩ : RoundResult)])) :=
  ⟨C6_aggregate_is_concat.1 _,
   C6_aggregate_is_concat.2 _ "A" [1, 4] (by decide) (by decide)⟩

/-- Claim C7: `_hash_key` with anonymization on is the hex-encoded SHA-256
digest of `salt + "::" + key_name` (a pure function of salt and label, with
a fixed 64-character — 256-bit — output), and with anonymization off it is
the identity on the raw label. -/
theorem C7_hash_key_spec :
    (∀ salt key_name : String,
        hash_key true salt key_name
          = sha256hex (utf8Bytes (salt ++ "::" ++ key_name)))
    ∧ (∀ salt key_name : String, (hash_key true salt key_name).length = 64)
    ∧ (∀ salt key_name : String, hash_key false salt key_name = key_name) := by
  refine ⟨fun s k => rfl, fun s k => ?_, fun s k => rfl⟩
  rw [show hash_key true s k = sha256hex (utf8Bytes (s ++ "::" ++ k)) from rfl]
  exact sha256hex_length _

/-- Claim C8: every `RoundResult` built at round end has
`duration = end_time - start_time`, which is nonnegative whenever the end
timestamp is not before the start timestamp (as guaranteed by the monotonic
clock `time.perf_counter`). -/
theorem C8_round_duration :
    ∀ (round_index : ℕ) (phrase : String) (start_time end_time : ℚ)
      (round_events : List KeyEvent),
      (mkRoundResult round_index phrase start_time end_time round_events).duration
          = end_time - start_time
      ∧ (start_time ≤ end_time →
          0 ≤ (mkRoundResult round_index phrase start_time end_time
                round_events).duration) := by
  intro i p s e evs
  refine ⟨rfl, fun h => ?_⟩
  show (0:ℚ) ≤ e - s
  linarith

/-- Witness for C8: a concrete round from 0 to 2 seconds. -/
theorem C8_round_duration_witness :
    (mkRoundResult 1 "the quick brown fox" 0 2 []).duration = 2 - 0
    ∧ 0 ≤ (mkRoundResult 1 "the quick brown fox" 0 2 []).duration :=
  ⟨(C8_round_duration 1 "the quick brown fox" 0 2 []).1,
   (C8_round_duration 1 "the quick brown fox" 0 2 []).2 (by norm_num)⟩
